import Mathlib

/-!
# Formal model of the Symptom-Diagnosis matching core (`src/app.py`)

This file gives a shallow embedding, in Lean 4, of the algorithmic core of the
Flask application in `src/app.py`:

* the CSV-row loader that builds `disease_map` (lines 45-65),
* the autocomplete index `symptom_list` (line 68),
* the symptom matcher / ranker inside the `submit` route (lines 174-216).

Python strings are modelled as Lean `String`; the Python string operations used
by the program (`str.strip`, `str.lower`, `str.split(",")`, substring test
`in`) are defined below over the character list `String.data`, mirroring the
ASCII behaviour of the CPython operations actually exercised by the data.
Python `dict`s (which preserve insertion order) are modelled as association
lists, and Python `set`s (whose iteration order is unspecified) as
insertion-ordered duplicate-free lists; every property proved below is
insensitive to the iteration order of those sets except where explicitly
discussed.  `round(x, 2)` is modelled on exact rationals with the
round-half-to-even rule used by Python.
-/

/-- The ASCII whitespace characters stripped by Python's `str.strip()`. -/
def isSpaceChar (c : Char) : Bool :=
  c == ' ' || c == '\t' || c == '\n' || c == '\r' || c == '\x0b' || c == '\x0c'

/-- Python `str.strip()`: drop whitespace from both ends. -/
def pyStrip (s : String) : String :=
  ⟨((s.data.dropWhile isSpaceChar).reverse.dropWhile isSpaceChar).reverse⟩

/-- Lower-case one character, as Python `str.lower()` does on the basic latin
letters (the only case-mapped characters appearing in the program's data). -/
def lowerChar (c : Char) : Char :=
  if h : 65 ≤ c.toNat ∧ c.toNat ≤ 90 then
    ⟨UInt32.ofNat' (c.toNat + 32) (Char.isValidUInt32 _ (Or.inl (by omega))),
     Char.isValidChar_of_isValidCharNat _ (Or.inl (by omega))⟩
  else c

/-- Python `str.lower()`. -/
def pyLower (s : String) : String := ⟨s.data.map lowerChar⟩

/-- Helper for `splitComma`: accumulate the current piece (reversed). -/
def splitCommaAux : List Char → List Char → List String
  | [], acc => [⟨acc.reverse⟩]
  | c :: rest, acc =>
    if c == ',' then ⟨acc.reverse⟩ :: splitCommaAux rest []
    else splitCommaAux rest (c :: acc)

/-- Python `str.split(",")`: split on every comma, keeping empty pieces
(`"".split(",") = [""]`, `"a,,b".split(",") = ["a","","b"]`). -/
def splitComma (s : String) : List String := splitCommaAux s.data []

/-- Boolean infix (contiguous-substring) test on character lists. -/
def infixOfB (a : List Char) : List Char → Bool
  | [] => a.isEmpty
  | b :: bs => List.isPrefixOf a (b :: bs) || infixOfB a bs

/-- Python's substring test `a in b`. -/
def substrB (a b : String) : Bool := infixOfB a.data b.data

/-- Insert `x` into `s` immediately before the first element `y` with
`le x y`.  When `s` is sorted this keeps it sorted and places `x` in front of
every element tied with it. -/
def insertStable (le : α → α → Bool) (x : α) : List α → List α
  | [] => [x]
  | y :: ys => if le x y then x :: y :: ys else y :: insertStable le x ys

/-- Stable insertion sort.  For a total, transitive boolean preorder `le`,
its output is sorted with ties kept in input order, which characterises the
output of Python's (stable) `sorted` builtin uniquely; it is structurally
recursive, hence usable in closed-term evaluation. -/
def stableSort (le : α → α → Bool) : List α → List α
  | [] => []
  | x :: xs => insertStable le x (stableSort le xs)

/-- `round` half-to-even to an integer, as Python's builtin `round`. -/
def roundHalfEven (q : ℚ) : ℤ :=
  let f := ⌊q⌋
  if q - f < 1/2 then f
  else if 1/2 < q - f then f + 1
  else if f % 2 = 0 then f else f + 1

/-- Python `round(x, 2)` on exact rationals. -/
def round2 (q : ℚ) : ℚ := (roundHalfEven (q * 100) : ℚ) / 100

/-- One value of `disease_map`: the Python dict
`{"symptoms": set, "precautions": set, "medicines": set}` (`app.py` line 51).
Python sets are modelled as insertion-ordered lists without duplicates. -/
structure DiseaseInfo where
  symptoms : List String
  precautions : List String
  medicines : List String
deriving DecidableEq, Repr

def emptyInfo : DiseaseInfo := ⟨[], [], []⟩

/-- One row of the normalized dataframe: the canonical string columns
`Disease`, `Symptom`, `Precaution`, `Medicine` created at `app.py` 39-42. -/
structure Row where
  Disease : String
  Symptom : String
  Precaution : String
  Medicine : String
deriving DecidableEq, Repr

/-- Python `set.add`, on the insertion-ordered list model of a set. -/
def addSym (l : List String) (s : String) : List String :=
  if s ∈ l then l else l ++ [s]

/-- The comma-separated symptom cell parser (`app.py` 54-57): split on commas,
strip each piece, keep the non-empty pieces (original casing). -/
def parseCell (cell : String) : List String :=
  (splitComma cell).filterMap fun s =>
    let t := pyStrip s
    if t = "" then none else some t

/-- Merge one dataset row into one disease's record (`app.py` 53-65). -/
def mergeRow (info : DiseaseInfo) (row : Row) : DiseaseInfo :=
  { symptoms := (parseCell row.Symptom).foldl addSym info.symptoms
    precautions :=
      let p := pyStrip row.Precaution
      if p ≠ "" ∧ pyLower p ≠ "nan" then addSym info.precautions p
      else info.precautions
    medicines :=
      let m := pyStrip row.Medicine
      if m ≠ "" ∧ pyLower m ≠ "nan" then addSym info.medicines m
      else info.medicines }

/-- Update the association list at key `d` in place (Python dict update),
appending a fresh entry at the end when the key is absent. -/
def updateEntry (d : String) (row : Row) :
    List (String × DiseaseInfo) → List (String × DiseaseInfo)
  | [] => [(d, mergeRow emptyInfo row)]
  | (k, info) :: rest =>
    if k = d then (k, mergeRow info row) :: rest
    else (k, info) :: updateEntry d row rest

/-- Process one dataset row (`app.py` 46-65): skip rows whose stripped disease
name is empty, otherwise merge the row into that disease's record. -/
def addRow (m : List (String × DiseaseInfo)) (row : Row) :
    List (String × DiseaseInfo) :=
  let d := pyStrip row.Disease
  if d = "" then m else updateEntry d row m

/-- The knowledge base `disease_map` (`app.py` 45-65): an insertion-ordered
map from disease name to its record, built by folding over the dataset rows. -/
def disease_map (rows : List Row) : List (String × DiseaseInfo) :=
  rows.foldl addRow []

/-- Python dict lookup (`disease_map[name]`) on the association-list model. -/
def lookupKey (n : String) : List (String × DiseaseInfo) → Option DiseaseInfo
  | [] => none
  | (k, info) :: rest => if k = n then some info else lookupKey n rest

/-- Comparison key for the autocomplete sort (`key=lambda x: x.lower()`). -/
def symLE (a b : String) : Bool := decide (pyLower a ≤ pyLower b)

/-- The autocomplete index (`app.py` 68): the deduplicated union of all
symptom tokens, sorted case-insensitively (Python's `sorted` is stable; the
embedding fixes first-occurrence order for the underlying set). -/
def symptom_list (kb : List (String × DiseaseInfo)) : List String :=
  stableSort symLE ((kb.flatMap fun p => p.2.symptoms).foldl addSym [])

/-- The parsed input token list (`app.py` 174-175):
`[s.strip().lower() for s in typed.strip().split(",") if s.strip()]`. -/
def input_symptoms (typed : String) : List String :=
  (splitComma (pyStrip typed)).filterMap fun piece =>
    let t := pyStrip piece
    if t = "" then none else some (pyLower t)

/-- The per-pair match rule (`app.py` 186):
`user_sym == ds_lower or user_sym in ds_lower or ds_lower in user_sym`. -/
def tokenMatches (t sym : String) : Bool :=
  t == pyLower sym || substrB t (pyLower sym) || substrB (pyLower sym) t

/-- The set `matched` (`app.py` 183-187): the disease symptoms, in original
casing, matched by at least one input token. -/
def matchedFor (tokens syms : List String) : List String :=
  syms.filter fun sym => tokens.any fun t => tokenMatches t sym

/-- Sort a list of strings ascending (Python `sorted`). -/
def sortStrings (l : List String) : List String :=
  stableSort (fun a b => decide (a ≤ b)) l

/-- One entry of the `results` dict (`app.py` 194-200). -/
structure MatchResult where
  matched_symptoms : List String
  total_symptoms : Nat
  match_percent : ℚ
  precaution : String
  medicine : String
deriving DecidableEq, Repr

/-- The value stored in `results[disease]` (`app.py` 190-200). -/
def resultOf (tokens : List String) (info : DiseaseInfo) : MatchResult :=
  { matched_symptoms := sortStrings (matchedFor tokens info.symptoms)
    total_symptoms := info.symptoms.length
    match_percent :=
      round2 (((matchedFor tokens info.symptoms).length : ℚ) / (tokens.length : ℚ) * 100)
    precaution := info.precautions.headD "No information"
    medicine := info.medicines.headD "No information" }

/-- The unsorted `results` mapping (`app.py` 177-200): for each disease with a
non-empty matched set, its match result, in knowledge-base scan order. -/
def rawResults (kb : List (String × DiseaseInfo)) (tokens : List String) :
    List (String × MatchResult) :=
  if tokens.isEmpty then []
  else
    kb.filterMap fun p =>
      if (matchedFor tokens p.2.symptoms).isEmpty then none
      else some (p.1, resultOf tokens p.2)

/-- Ranking comparison (`app.py` 202): descending `match_percent`; Python's
`sorted(..., reverse=True)` is a stable sort. -/
def rankLE (a b : String × MatchResult) : Bool :=
  decide (b.2.match_percent ≤ a.2.match_percent)

/-- The ranked result sequence for an already-parsed token list. -/
def queryTokens (kb : List (String × DiseaseInfo)) (tokens : List String) :
    List (String × MatchResult) :=
  stableSort rankLE (rawResults kb tokens)

/-- The full query pipeline of the `submit` route (`app.py` 174-202). -/
def query (kb : List (String × DiseaseInfo)) (typed : String) :
    List (String × MatchResult) :=
  queryTokens kb (input_symptoms typed)

/-- A persisted report row (`app.py` 98-108, 204-214). -/
structure Report where
  username : String
  symptoms : String
  disease : String
  precaution : String
  medicine : String
  match_percent : ℚ
deriving DecidableEq, Repr

/-- The report-creation step (`app.py` 204-214): persist the top-ranked entry
when the ranked sequence is non-empty, otherwise create nothing. -/
def submitReport (results : List (String × MatchResult))
    (username typed : String) : Option Report :=
  match results with
  | [] => none
  | (d, e) :: _ =>
    some ⟨username, typed, d, e.precaution, e.medicine, e.match_percent⟩

/-- A small concrete knowledge base (the worked example of the spec). -/
def kbEx : List (String × DiseaseInfo) :=
  [("Flu", ⟨["fever", "cough"], ["rest"], ["paracetamol"]⟩),
   ("Malaria", ⟨["high fever", "chills"], [], ["chloroquine"]⟩)]

/-- The match result computed for disease Flu on input "fever" over `kbEx`. -/
def mrFlu : MatchResult := ⟨["fever"], 2, 100, "rest", "paracetamol"⟩

/-- The match result computed for disease Malaria on input "fever". -/
def mrMal : MatchResult := ⟨["high fever"], 2, 100, "No information", "chloroquine"⟩

/-- A small concrete dataset: two rows for Flu (merged) and one skipped row. -/
def rowsEx : List Row :=
  [⟨"Flu", "fever", "rest", ""⟩, ⟨" Flu ", "cough, chills", "nan", "x"⟩,
   ⟨"  ", "skipme", "", ""⟩]

/-- The record `rowsEx` loads for disease Flu. -/
def infoFlu : DiseaseInfo := ⟨["fever", "cough", "chills"], ["rest"], ["x"]⟩

/-! ## Helper lemmas -/

theorem insertStable_perm (le : α → α → Bool) (x : α) (s : List α) :
    (insertStable le x s).Perm (x :: s) := by
  induction s with
  | nil => simp [insertStable]
  | cons y ys ih =>
    by_cases h : le x y
    · simp [insertStable, h]
    · simp only [insertStable, h, if_false]
      exact (ih.cons y).trans (List.Perm.swap x y ys)

theorem stableSort_perm (le : α → α → Bool) (l : List α) :
    (stableSort le l).Perm l := by
  induction l with
  | nil => simp [stableSort]
  | cons x xs ih =>
    exact (insertStable_perm le x (stableSort le xs)).trans (ih.cons x)

theorem mem_stableSort {le : α → α → Bool} {l : List α} {a : α} :
    a ∈ stableSort le l ↔ a ∈ l := (stableSort_perm le l).mem_iff

theorem length_stableSort (le : α → α → Bool) (l : List α) :
    (stableSort le l).length = l.length := (stableSort_perm le l).length_eq

theorem pairwise_insertStable {le : α → α → Bool}
    (htrans : ∀ a b c, le a b = true → le b c = true → le a c = true)
    (htotal : ∀ a b, le a b = true ∨ le b a = true)
    {x : α} {s : List α} (hs : s.Pairwise (fun a b => le a b = true)) :
    (insertStable le x s).Pairwise (fun a b => le a b = true) := by
  induction s with
  | nil => simp [insertStable]
  | cons y ys ih =>
    rcases List.pairwise_cons.mp hs with ⟨hy, hys⟩
    by_cases h : le x y
    · simp only [insertStable, h, if_true]
      refine List.pairwise_cons.mpr ⟨?_, hs⟩
      intro b hb
      rcases List.mem_cons.mp hb with rfl | hb2
      · exact h
      · exact htrans x y b h (hy b hb2)
    · have hyx : le y x = true := (htotal x y).resolve_left h
      simp only [insertStable, h, if_false]
      refine List.pairwise_cons.mpr ⟨?_, ih hys⟩
      intro b hb
      have hb' : b = x ∨ b ∈ ys := by
        have := (insertStable_perm le x ys).mem_iff.mp hb
        simpa using this
      rcases hb' with rfl | hb2
      · exact hyx
      · exact hy b hb2

theorem pairwise_stableSort {le : α → α → Bool}
    (htrans : ∀ a b c, le a b = true → le b c = true → le a c = true)
    (htotal : ∀ a b, le a b = true ∨ le b a = true) (l : List α) :
    (stableSort le l).Pairwise (fun a b => le a b = true) := by
  induction l with
  | nil => simp [stableSort]
  | cons x xs ih =>
    simp only [stableSort]
    exact pairwise_insertStable htrans htotal ih

theorem filter_insertStable_pos {le : α → α → Bool} {q : α → Bool} {x : α}
    (hx : q x = true) (hq : ∀ y, q y = true → le x y = true) (s : List α) :
    (insertStable le x s).filter q = x :: s.filter q := by
  induction s with
  | nil => simp [insertStable, hx]
  | cons y ys ih =>
    by_cases h : le x y
    · simp [insertStable, h, hx]
    · have hqy : q y = false := by
        cases hy : q y
        · rfl
        · exact absurd (hq y hy) h
      simp [insertStable, h, hqy, ih]

theorem filter_insertStable_neg {le : α → α → Bool} {q : α → Bool} {x : α}
    (hx : q x = false) (s : List α) :
    (insertStable le x s).filter q = s.filter q := by
  induction s with
  | nil => simp [insertStable, hx]
  | cons y ys ih =>
    by_cases h : le x y
    · simp [insertStable, h, hx]
    · cases hy : q y <;> simp [insertStable, h, hy, ih]

theorem filter_stableSort {le : α → α → Bool} {q : α → Bool}
    (hq : ∀ a b, q a = true → q b = true → le a b = true) (l : List α) :
    (stableSort le l).filter q = l.filter q := by
  induction l with
  | nil => rfl
  | cons x xs ih =>
    cases hx : q x
    · simp only [stableSort]
      rw [filter_insertStable_neg hx, ih]
      simp [hx]
    · simp only [stableSort]
      rw [filter_insertStable_pos hx (fun y hy => hq x y hx hy), ih]
      simp [hx]

theorem dropWhile_eq_nil_of {p : Char → Bool} {l : List Char}
    (h : ∀ c ∈ l, p c = true) : l.dropWhile p = [] := by
  induction l with
  | nil => rfl
  | cons c t ih =>
    rw [List.dropWhile_cons_of_pos (h c (List.mem_cons_self c t))]
    exact ih fun x hx => h x (List.mem_cons_of_mem _ hx)

theorem pyStrip_eq_empty {s : String} (h : ∀ c ∈ s.data, isSpaceChar c = true) :
    pyStrip s = "" := by
  unfold pyStrip
  rw [dropWhile_eq_nil_of h]
  rfl

theorem mem_pyStrip {s : String} {c : Char} (h : c ∈ (pyStrip s).data) :
    c ∈ s.data := by
  unfold pyStrip at h
  have h1 : c ∈ (s.data.dropWhile isSpaceChar).reverse :=
    (List.dropWhile_sublist _).subset (List.mem_reverse.mp h)
  exact (List.dropWhile_sublist _).subset (List.mem_reverse.mp h1)

theorem splitCommaAux_space : ∀ (l acc : List Char),
    (∀ c ∈ l, c = ',' ∨ isSpaceChar c = true) →
    (∀ c ∈ acc, isSpaceChar c = true) →
    ∀ piece ∈ splitCommaAux l acc, ∀ c ∈ piece.data, isSpaceChar c = true := by
  intro l
  induction l with
  | nil =>
    intro acc _ hacc piece hp c hc
    simp only [splitCommaAux, List.mem_singleton] at hp
    subst hp
    exact hacc c (List.mem_reverse.mp hc)
  | cons a t ih =>
    intro acc hl hacc piece hp c hc
    by_cases ha : a = ','
    · simp only [splitCommaAux, ha, beq_self_eq_true, if_true] at hp
      rcases List.mem_cons.mp hp with h1 | h2
      · subst h1
        exact hacc c (List.mem_reverse.mp hc)
      · exact ih [] (fun x hx => hl x (List.mem_cons_of_mem _ hx))
          (by intro x hx; cases hx) piece h2 c hc
    · have ha' : isSpaceChar a = true :=
        (hl a (List.mem_cons_self a t)).resolve_left ha
      have hbeq : (a == ',') = false := beq_eq_false_iff_ne.mpr ha
      simp only [splitCommaAux, hbeq, if_false] at hp
      exact ih (a :: acc) (fun x hx => hl x (List.mem_cons_of_mem _ hx))
        (by
          intro x hx
          rcases List.mem_cons.mp hx with h1 | h2
          · subst h1; exact ha'
          · exact hacc x h2) piece hp c hc

theorem input_symptoms_eq_nil {typed : String}
    (h : ∀ c ∈ typed.data, c = ',' ∨ isSpaceChar c = true) :
    input_symptoms typed = [] := by
  unfold input_symptoms
  rw [List.filterMap_eq_nil_iff]
  intro piece hp
  have hps : ∀ c ∈ piece.data, isSpaceChar c = true :=
    splitCommaAux_space (pyStrip typed).data []
      (fun c hc => h c (mem_pyStrip hc)) (by intro c hc; cases hc) piece hp
  simp [pyStrip_eq_empty hps]

theorem mem_queryTokens {kb : List (String × DiseaseInfo)} {tokens : List String}
    {x : String × MatchResult} :
    x ∈ queryTokens kb tokens ↔ x ∈ rawResults kb tokens := by
  unfold queryTokens
  exact mem_stableSort

theorem mem_rawResults {kb : List (String × DiseaseInfo)} {tokens : List String}
    {d : String} {e : MatchResult} :
    (d, e) ∈ rawResults kb tokens ↔
      tokens ≠ [] ∧ ∃ info, (d, info) ∈ kb ∧
        matchedFor tokens info.symptoms ≠ [] ∧ e = resultOf tokens info := by
  unfold rawResults
  by_cases ht : tokens.isEmpty
  · rw [if_pos ht]
    simp [List.isEmpty_iff.mp ht]
  · rw [if_neg ht]
    have ht' : tokens ≠ [] := by simpa [List.isEmpty_iff] using ht
    constructor
    · intro hmem
      rcases List.mem_filterMap.mp hmem with ⟨⟨k, info⟩, hk_mem, hf⟩
      by_cases hm : (matchedFor tokens info.symptoms).isEmpty
      · rw [if_pos hm] at hf
        exact Option.noConfusion hf
      · rw [if_neg hm] at hf
        have hinj := Option.some.inj hf
        have h1 : k = d := congrArg Prod.fst hinj
        have h2 : resultOf tokens info = e := congrArg Prod.snd hinj
        exact ⟨ht', info, h1 ▸ hk_mem, by simpa [List.isEmpty_iff] using hm,
          h2.symm⟩
    · rintro ⟨-, info, hmem, hne, he⟩
      apply List.mem_filterMap.mpr
      refine ⟨(d, info), hmem, ?_⟩
      rw [if_neg (by simpa [List.isEmpty_iff] using hne), he]


theorem any_congr_perm {l1 l2 : List α} (h : l1.Perm l2) (p : α → Bool) :
    l1.any p = l2.any p := by
  cases hb : l2.any p
  · cases ha : l1.any p
    · rfl
    · rcases List.any_eq_true.mp ha with ⟨x, hx, hp⟩
      have h2 : l2.any p = true := List.any_eq_true.mpr ⟨x, h.mem_iff.mp hx, hp⟩
      rw [h2] at hb
      exact Bool.noConfusion hb
  · rcases List.any_eq_true.mp hb with ⟨x, hx, hp⟩
    exact List.any_eq_true.mpr ⟨x, h.mem_iff.mpr hx, hp⟩

theorem matchedFor_perm {l1 l2 : List String} (h : l1.Perm l2) (syms : List String) :
    matchedFor l1 syms = matchedFor l2 syms := by
  unfold matchedFor
  apply List.filter_congr
  intro sym _
  exact any_congr_perm h _

theorem resultOf_perm {l1 l2 : List String} (h : l1.Perm l2) (info : DiseaseInfo) :
    resultOf l1 info = resultOf l2 info := by
  unfold resultOf
  rw [matchedFor_perm h, h.length_eq]

theorem rawResults_perm {l1 l2 : List String} (h : l1.Perm l2)
    (kb : List (String × DiseaseInfo)) :
    rawResults kb l1 = rawResults kb l2 := by
  have hemp : l1.isEmpty = l2.isEmpty := by
    have := h.length_eq
    cases l1 <;> cases l2 <;> simp_all
  unfold rawResults
  by_cases hc : l2.isEmpty
  · simp [hemp, hc]
  · rw [hemp, if_neg hc, if_neg hc]
    have hfun :
        (fun p : String × DiseaseInfo =>
          if (matchedFor l1 p.2.symptoms).isEmpty then none
          else some (p.1, resultOf l1 p.2)) =
        (fun p : String × DiseaseInfo =>
          if (matchedFor l2 p.2.symptoms).isEmpty then none
          else some (p.1, resultOf l2 p.2)) := by
      funext p
      rw [matchedFor_perm h, resultOf_perm h]
    rw [hfun]


theorem lowerChar_toNat_of_upper {c : Char} (h : 65 ≤ c.toNat ∧ c.toNat ≤ 90) :
    (lowerChar c).toNat = c.toNat + 32 := by
  unfold lowerChar
  rw [dif_pos h]
  rfl

theorem lowerChar_eq_self {c : Char} (h : ¬(65 ≤ c.toNat ∧ c.toNat ≤ 90)) :
    lowerChar c = c := by
  unfold lowerChar
  rw [dif_neg h]

theorem lowerChar_idem (c : Char) : lowerChar (lowerChar c) = lowerChar c := by
  by_cases h : 65 ≤ c.toNat ∧ c.toNat ≤ 90
  · apply lowerChar_eq_self
    rw [lowerChar_toNat_of_upper h]
    omega
  · rw [lowerChar_eq_self h]
    exact lowerChar_eq_self h

theorem pyLower_idem (s : String) : pyLower (pyLower s) = pyLower s := by
  unfold pyLower
  congr 1
  rw [List.map_map]
  apply List.map_congr_left
  intro c _
  exact lowerChar_idem c

theorem pyLower_of_input {typed t : String} (h : t ∈ input_symptoms typed) :
    pyLower t = t := by
  unfold input_symptoms at h
  rcases List.mem_filterMap.mp h with ⟨piece, hp, hf⟩
  dsimp only at hf
  split at hf
  · exact Option.noConfusion hf
  · have h2 := Option.some.inj hf
    rw [← h2]
    exact pyLower_idem _

theorem mem_matchedFor {tokens syms : List String} {s : String} :
    s ∈ matchedFor tokens syms ↔
      s ∈ syms ∧ ∃ t ∈ tokens, tokenMatches t s = true := by
  unfold matchedFor
  rw [List.mem_filter]
  simp [List.any_eq_true]

theorem tokenMatches_iff {typed t s : String} (ht : t ∈ input_symptoms typed) :
    tokenMatches t s = true ↔
      (pyLower t = pyLower s ∨ substrB t (pyLower s) = true ∨
        substrB (pyLower s) t = true) := by
  have hl : pyLower t = t := pyLower_of_input ht
  unfold tokenMatches
  simp only [Bool.or_eq_true, beq_iff_eq]
  constructor
  · rintro ((h1 | h2) | h3)
    · left
      rw [hl, h1]
    · right
      left
      exact h2
    · right
      right
      exact h3
  · rintro (h1 | h2 | h3)
    · left
      left
      rw [hl] at h1
      exact h1
    · left
      right
      exact h2
    · right
      exact h3

theorem mem_addSym {l : List String} {x s : String} :
    s ∈ addSym l x ↔ s ∈ l ∨ s = x := by
  unfold addSym
  by_cases hx : x ∈ l
  · rw [if_pos hx]
    constructor
    · exact Or.inl
    · rintro (h | rfl)
      · exact h
      · exact hx
  · rw [if_neg hx]
    simp

theorem mem_foldl_addSym (xs : List String) (acc : List String) (s : String) :
    s ∈ xs.foldl addSym acc ↔ s ∈ acc ∨ s ∈ xs := by
  induction xs generalizing acc with
  | nil => simp
  | cons x t ih =>
    rw [List.foldl_cons, ih, mem_addSym, List.mem_cons]
    constructor
    · rintro (⟨h | h⟩ | h)
      · exact Or.inl h
      · exact Or.inr (Or.inl h)
      · exact Or.inr (Or.inr h)
    · rintro (h | ⟨h | h⟩)
      · exact Or.inl (Or.inl h)
      · exact Or.inl (Or.inr h)
      · exact Or.inr h

theorem nodup_addSym {l : List String} {x : String} (h : l.Nodup) :
    (addSym l x).Nodup := by
  unfold addSym
  by_cases hx : x ∈ l
  · rw [if_pos hx]
    exact h
  · rw [if_neg hx]
    refine List.Nodup.append h (List.nodup_singleton x) ?_
    intro a ha hax
    rw [List.mem_singleton] at hax
    exact hx (hax ▸ ha)

theorem nodup_foldl_addSym (xs acc : List String) (h : acc.Nodup) :
    (xs.foldl addSym acc).Nodup := by
  induction xs generalizing acc with
  | nil => exact h
  | cons x t ih => exact ih _ (nodup_addSym h)


theorem disease_map_concat (rows : List Row) (row : Row) :
    disease_map (rows ++ [row]) = addRow (disease_map rows) row := by
  unfold disease_map
  rw [List.foldl_append]
  rfl

theorem lookupKey_updateEntry (d n : String) (row : Row)
    (m : List (String × DiseaseInfo)) :
    lookupKey n (updateEntry d row m) =
      if n = d then some (mergeRow ((lookupKey d m).getD emptyInfo) row)
      else lookupKey n m := by
  induction m with
  | nil =>
    by_cases hn : n = d
    · subst hn
      simp [updateEntry, lookupKey]
    · simp [updateEntry, lookupKey, hn, Ne.symm hn]
  | cons p rest ih =>
    obtain ⟨k, info⟩ := p
    by_cases hk : k = d
    · subst hk
      by_cases hn : n = k
      · subst hn
        simp [updateEntry, lookupKey]
      · simp [updateEntry, lookupKey, hn, Ne.symm hn]
    · by_cases hn : n = k
      · subst hn
        simp [updateEntry, lookupKey, hk]
      · simp [updateEntry, lookupKey, hk, hn, Ne.symm hn, ih]

theorem lookupKey_addRow (row : Row) (n : String)
    (m : List (String × DiseaseInfo)) :
    lookupKey n (addRow m row) =
      if pyStrip row.Disease = "" then lookupKey n m
      else if n = pyStrip row.Disease then
        some (mergeRow ((lookupKey n m).getD emptyInfo) row)
      else lookupKey n m := by
  simp only [addRow]
  by_cases hd : pyStrip row.Disease = ""
  · simp [hd]
  · rw [if_neg hd, if_neg hd, lookupKey_updateEntry]
    by_cases hn : n = pyStrip row.Disease
    · simp [hn]
    · simp [hn]

theorem mem_mergeRow_symptoms {info : DiseaseInfo} {row : Row} {s : String} :
    s ∈ (mergeRow info row).symptoms ↔
      s ∈ info.symptoms ∨ s ∈ parseCell row.Symptom := by
  unfold mergeRow
  exact mem_foldl_addSym _ _ _

theorem lookupKey_isSome_iff (n : String) (m : List (String × DiseaseInfo)) :
    (lookupKey n m).isSome = true ↔ n ∈ m.map Prod.fst := by
  induction m with
  | nil => simp [lookupKey]
  | cons p rest ih =>
    obtain ⟨k, info⟩ := p
    by_cases hk : k = n
    · subst hk
      simp [lookupKey]
    · simp [lookupKey, hk, ih, Ne.symm hk]

theorem keys_updateEntry (d : String) (row : Row)
    (m : List (String × DiseaseInfo)) :
    (updateEntry d row m).map Prod.fst =
      if (lookupKey d m).isSome then m.map Prod.fst
      else m.map Prod.fst ++ [d] := by
  induction m with
  | nil => simp [updateEntry, lookupKey]
  | cons p rest ih =>
    obtain ⟨k, info⟩ := p
    by_cases hk : k = d
    · subst hk
      simp [updateEntry, lookupKey]
    · simp only [updateEntry, if_neg hk, List.map_cons, ih, lookupKey]
      split <;> rfl

theorem nodup_keys_disease_map (rows : List Row) :
    ((disease_map rows).map Prod.fst).Nodup := by
  induction rows using List.reverseRecOn with
  | nil => simp [disease_map]
  | append_singleton rows row ih =>
    rw [disease_map_concat]
    simp only [addRow]
    by_cases hdis : pyStrip row.Disease = ""
    · simp [hdis, ih]
    · rw [if_neg hdis, keys_updateEntry]
      split
      · exact ih
      · rename_i hsome
        have hnot : pyStrip row.Disease ∉ (disease_map rows).map Prod.fst := by
          intro hmem
          exact hsome ((lookupKey_isSome_iff _ _).mpr hmem)
        refine List.Nodup.append ih (List.nodup_singleton _) ?_
        intro a ha hax
        rw [List.mem_singleton] at hax
        exact hnot (hax ▸ ha)

theorem lookupKey_disease_map_isSome (rows : List Row) (n : String) :
    (lookupKey n (disease_map rows)).isSome = true ↔
      n ≠ "" ∧ ∃ row ∈ rows, pyStrip row.Disease = n := by
  induction rows using List.reverseRecOn with
  | nil => simp [disease_map, lookupKey]
  | append_singleton rows row ih =>
    rw [disease_map_concat, lookupKey_addRow]
    by_cases hdis : pyStrip row.Disease = ""
    · rw [if_pos hdis, ih]
      constructor
      · rintro ⟨hn, r, hr, h1⟩
        exact ⟨hn, r, List.mem_append_left _ hr, h1⟩
      · rintro ⟨hn, r, hr, h1⟩
        rcases List.mem_append.mp hr with hr1 | hr2
        · exact ⟨hn, r, hr1, h1⟩
        · rw [List.mem_singleton] at hr2
          subst hr2
          rw [hdis] at h1
          exact absurd h1.symm hn
    · rw [if_neg hdis]
      by_cases hn : n = pyStrip row.Disease
      · rw [if_pos hn]
        simp only [Option.isSome_some, true_iff]
        refine ⟨by rw [hn]; exact hdis, row, List.mem_append_right _ (by simp), hn.symm⟩
      · rw [if_neg hn, ih]
        constructor
        · rintro ⟨hne, r, hr, h1⟩
          exact ⟨hne, r, List.mem_append_left _ hr, h1⟩
        · rintro ⟨hne, r, hr, h1⟩
          rcases List.mem_append.mp hr with hr1 | hr2
          · exact ⟨hne, r, hr1, h1⟩
          · rw [List.mem_singleton] at hr2
            subst hr2
            exact absurd h1.symm hn

theorem mem_symptoms_disease_map (rows : List Row) (n : String)
    (info : DiseaseInfo)
    (h : lookupKey n (disease_map rows) = some info) :
    n ≠ "" ∧ ∀ s, (s ∈ info.symptoms ↔
      ∃ row ∈ rows, pyStrip row.Disease = n ∧ s ∈ parseCell row.Symptom) := by
  induction rows using List.reverseRecOn generalizing info with
  | nil => simp [disease_map, lookupKey] at h
  | append_singleton rows row ih =>
    rw [disease_map_concat, lookupKey_addRow] at h
    by_cases hdis : pyStrip row.Disease = ""
    · rw [if_pos hdis] at h
      obtain ⟨hn, hiff⟩ := ih info h
      refine ⟨hn, fun s => ?_⟩
      constructor
      · intro hs
        obtain ⟨r, hr, h1, h2⟩ := (hiff s).mp hs
        exact ⟨r, List.mem_append_left _ hr, h1, h2⟩
      · rintro ⟨r, hr, h1, h2⟩
        rcases List.mem_append.mp hr with hr1 | hr2
        · exact (hiff s).mpr ⟨r, hr1, h1, h2⟩
        · rw [List.mem_singleton] at hr2
          subst hr2
          rw [hdis] at h1
          exact absurd h1.symm hn
    · rw [if_neg hdis] at h
      by_cases hn : n = pyStrip row.Disease
      · rw [if_pos hn] at h
        have hinfo := Option.some.inj h
        have hne : n ≠ "" := by
          rw [hn]
          exact hdis
        refine ⟨hne, fun s => ?_⟩
        rw [← hinfo, mem_mergeRow_symptoms]
        cases hlk : lookupKey n (disease_map rows) with
        | some info0 =>
          obtain ⟨hn0, hiff0⟩ := ih info0 hlk
          simp only [Option.getD_some]
          constructor
          · rintro (hs | hs)
            · obtain ⟨r, hr, h1, h2⟩ := (hiff0 s).mp hs
              exact ⟨r, List.mem_append_left _ hr, h1, h2⟩
            · exact ⟨row, List.mem_append_right _ (by simp), hn.symm, hs⟩
          · rintro ⟨r, hr, h1, h2⟩
            rcases List.mem_append.mp hr with hr1 | hr2
            · exact Or.inl ((hiff0 s).mpr ⟨r, hr1, h1, h2⟩)
            · rw [List.mem_singleton] at hr2
              subst hr2
              exact Or.inr h2
        | none =>
          have hnr : ∀ r ∈ rows, pyStrip r.Disease ≠ n := by
            intro r hr hc
            have hsome : (lookupKey n (disease_map rows)).isSome = true :=
              (lookupKey_disease_map_isSome rows n).mpr ⟨hne, r, hr, hc⟩
            rw [hlk] at hsome
            exact Bool.noConfusion hsome
          simp only [Option.getD_none]
          constructor
          · rintro (hs | hs)
            · exact absurd hs (List.not_mem_nil s)
            · exact ⟨row, List.mem_append_right _ (by simp), hn.symm, hs⟩
          · rintro ⟨r, hr, h1, h2⟩
            rcases List.mem_append.mp hr with hr1 | hr2
            · exact absurd h1 (hnr r hr1)
            · rw [List.mem_singleton] at hr2
              subst hr2
              exact Or.inr h2
      · rw [if_neg hn] at h
        obtain ⟨hn0, hiff⟩ := ih info h
        refine ⟨hn0, fun s => ?_⟩
        constructor
        · intro hs
          obtain ⟨r, hr, h1, h2⟩ := (hiff s).mp hs
          exact ⟨r, List.mem_append_left _ hr, h1, h2⟩
        · rintro ⟨r, hr, h1, h2⟩
          rcases List.mem_append.mp hr with hr1 | hr2
          · exact (hiff s).mpr ⟨r, hr1, h1, h2⟩
          · rw [List.mem_singleton] at hr2
            subst hr2
            exact absurd h1.symm hn


theorem infixOfB_iff (a : List Char) (l : List Char) :
    infixOfB a l = true ↔ a.IsInfix l := by
  induction l with
  | nil =>
    simp [infixOfB, List.isEmpty_iff]
  | cons b bs ih =>
    simp only [infixOfB, Bool.or_eq_true, ih, List.isPrefixOf_iff_prefix]
    exact (List.infix_cons_iff).symm

theorem substrB_iff (a b : String) :
    substrB a b = true ↔ a.data.IsInfix b.data :=
  infixOfB_iff a.data b.data

/-! ## Claims

The witnesses below evaluate the model on concrete inputs with `decide`; the
Batteries rational-arithmetic definitions are irreducible by default, which
only blocks the tactic-level evaluator, so they are made semireducible
locally. -/

section ClaimsSection

attribute [local semireducible] Rat.mul Rat.inv Rat.add Rat.sub

/-- C5: an input whose comma-split pieces are all empty after trimming
(equivalently: every character is a comma or whitespace) yields an empty
result sequence, with no error and no division by zero. -/
theorem empty_input_yields_empty_results (kb : List (String × DiseaseInfo))
    (typed : String)
    (h : ∀ c ∈ typed.data, c = ',' ∨ isSpaceChar c = true) :
    query kb typed = [] := by
  unfold query queryTokens rawResults
  rw [input_symptoms_eq_nil h]
  simp [stableSort]

theorem empty_input_yields_empty_results_witness :
    (∀ c ∈ (" , ," : String).data, c = ',' ∨ isSpaceChar c = true) ∧
      query kbEx " , ," = [] :=
  ⟨by decide, empty_input_yields_empty_results kbEx " , ," (by decide)⟩

/-- C9: a report is created if and only if the ranked result sequence is
non-empty, and it records the top-ranked disease with its precaution,
medicine and match percentage. -/
theorem report_iff_nonempty_results (kb : List (String × DiseaseInfo))
    (username typed : String) :
    (submitReport (query kb typed) username typed = none ↔ query kb typed = []) ∧
    submitReport (query kb typed) username typed =
      (query kb typed).head?.map fun p =>
        ⟨username, typed, p.1, p.2.precaution, p.2.medicine, p.2.match_percent⟩ := by
  cases h : query kb typed with
  | nil => simp [submitReport]
  | cons hd tl =>
    obtain ⟨d, e⟩ := hd
    simp [submitReport]

/-- C4: every disease appearing in the query result has a non-empty matched
symptom set. -/
theorem result_diseases_have_matches (kb : List (String × DiseaseInfo))
    (typed d : String) (e : MatchResult)
    (h : (d, e) ∈ query kb typed) : e.matched_symptoms ≠ [] := by
  unfold query at h
  rw [mem_queryTokens, mem_rawResults] at h
  obtain ⟨-, info, -, hne, he⟩ := h
  rw [he]
  intro hc
  apply hne
  have hlen := congrArg List.length hc
  simp only [resultOf, sortStrings, length_stableSort, List.length_nil] at hlen
  exact List.length_eq_zero.mp hlen

theorem result_diseases_have_matches_witness :
    (("Flu", mrFlu) ∈ query kbEx "fever") ∧ mrFlu.matched_symptoms ≠ [] :=
  ⟨by decide, result_diseases_have_matches kbEx "fever" "Flu" mrFlu (by decide)⟩

/-- C1: for a non-empty parsed token list, the reported match percentage of
every included disease is round(100 * |matchedSet| / |inputSymptoms|, 2),
the denominator being the literal token count, duplicates included. -/
theorem match_percent_formula (kb : List (String × DiseaseInfo))
    (typed d : String) (e : MatchResult)
    (hne : input_symptoms typed ≠ [])
    (h : (d, e) ∈ query kb typed) :
    e.match_percent =
      round2 (100 * (e.matched_symptoms.length : ℚ) /
        ((input_symptoms typed).length : ℚ)) := by
  unfold query at h
  rw [mem_queryTokens, mem_rawResults] at h
  obtain ⟨-, info, -, -, he⟩ := h
  rw [he]
  simp only [resultOf, sortStrings, length_stableSort]
  congr 1
  ring

theorem match_percent_formula_witness :
    input_symptoms "fever" ≠ [] ∧ (("Flu", mrFlu) ∈ query kbEx "fever") ∧
      mrFlu.match_percent =
        round2 (100 * (mrFlu.matched_symptoms.length : ℚ) /
          ((input_symptoms "fever").length : ℚ)) :=
  ⟨by decide, by decide,
    match_percent_formula kbEx "fever" "Flu" mrFlu (by decide) (by decide)⟩

/-- C10: the query output is invariant under permuting the parsed input token
list: the matched set is a union over tokens and the percentage denominator is
the token count, so every output component is unchanged. -/
theorem query_perm_invariant (kb : List (String × DiseaseInfo))
    (l1 l2 : List String) (h : l1.Perm l2) :
    queryTokens kb l1 = queryTokens kb l2 := by
  unfold queryTokens
  rw [rawResults_perm h]

theorem query_perm_invariant_witness :
    (["fever", "x"] : List String).Perm ["x", "fever"] ∧
      queryTokens kbEx ["fever", "x"] = queryTokens kbEx ["x", "fever"] :=
  ⟨List.Perm.swap "x" "fever" [],
    query_perm_invariant kbEx _ _ (List.Perm.swap "x" "fever" [])⟩

/-- C3: the ranked result sequence is non-increasing in match percentage, and
entries with equal percentage appear in knowledge-base scan order (the order
of the unsorted results mapping): filtering the ranked sequence at any fixed
percentage gives exactly the corresponding filter of the scan-order list. -/
theorem ranking_sorted_and_stable (kb : List (String × DiseaseInfo))
    (typed : String) :
    List.Pairwise (fun a b => b.2.match_percent ≤ a.2.match_percent)
      (query kb typed) ∧
    ∀ p : ℚ, (query kb typed).filter (fun x => decide (x.2.match_percent = p)) =
      (rawResults kb (input_symptoms typed)).filter
        (fun x => decide (x.2.match_percent = p)) := by
  have htrans : ∀ a b c : String × MatchResult,
      rankLE a b = true → rankLE b c = true → rankLE a c = true := by
    intro a b c hab hbc
    simp only [rankLE, decide_eq_true_eq] at *
    exact le_trans hbc hab
  have htotal : ∀ a b : String × MatchResult,
      rankLE a b = true ∨ rankLE b a = true := by
    intro a b
    simp only [rankLE, decide_eq_true_eq]
    exact le_total _ _
  constructor
  · have hp := pairwise_stableSort htrans htotal
      (rawResults kb (input_symptoms typed))
    unfold query queryTokens
    exact hp.imp fun hab => by simpa [rankLE] using hab
  · intro p
    unfold query queryTokens
    apply filter_stableSort
    intro a b ha hb
    simp only [decide_eq_true_eq] at ha hb
    simp [rankLE, ha, hb]

/-- C2: an input token matches a disease symptom exactly when the lower-cased
strings are equal or one contains the other as a substring, and the matched
set of an included disease is the union, over all input tokens, of the
disease symptoms (original casing) matched by some token. -/
theorem match_rule_and_union (kb : List (String × DiseaseInfo))
    (typed d : String) (e : MatchResult)
    (h : (d, e) ∈ query kb typed) :
    ∃ info, (d, info) ∈ kb ∧ ∀ s,
      (s ∈ e.matched_symptoms ↔ s ∈ info.symptoms ∧
        ∃ t ∈ input_symptoms typed,
          (pyLower t = pyLower s ∨ substrB t (pyLower s) = true ∨
            substrB (pyLower s) t = true)) := by
  unfold query at h
  rw [mem_queryTokens, mem_rawResults] at h
  obtain ⟨-, info, hmem, -, he⟩ := h
  refine ⟨info, hmem, fun s => ?_⟩
  rw [he]
  have hms : (resultOf (input_symptoms typed) info).matched_symptoms =
      stableSort (fun a b => decide (a ≤ b))
        (matchedFor (input_symptoms typed) info.symptoms) := rfl
  rw [hms, mem_stableSort, mem_matchedFor]
  apply and_congr_right
  intro _
  constructor
  · rintro ⟨t, ht, hm⟩
    exact ⟨t, ht, (tokenMatches_iff ht).mp hm⟩
  · rintro ⟨t, ht, hm⟩
    exact ⟨t, ht, (tokenMatches_iff ht).mpr hm⟩

theorem match_rule_and_union_witness :
    (("Flu", mrFlu) ∈ query kbEx "fever") ∧
      ∃ info, ("Flu", info) ∈ kbEx ∧ ∀ s,
        (s ∈ mrFlu.matched_symptoms ↔ s ∈ info.symptoms ∧
          ∃ t ∈ input_symptoms "fever",
            (pyLower t = pyLower s ∨ substrB t (pyLower s) = true ∨
              substrB (pyLower s) t = true)) :=
  ⟨by decide, match_rule_and_union kbEx "fever" "Flu" mrFlu (by decide)⟩

/-- C8: the autocomplete index contains exactly the symptom tokens of the
knowledge base (deduplicated only when case-identical, hence no duplicates),
sorted by case-insensitive lexicographic order. -/
theorem autocomplete_index_spec (kb : List (String × DiseaseInfo)) :
    (∀ s, s ∈ symptom_list kb ↔ ∃ p ∈ kb, s ∈ p.2.symptoms) ∧
    (symptom_list kb).Nodup ∧
    (symptom_list kb).Pairwise (fun a b => pyLower a ≤ pyLower b) := by
  refine ⟨?_, ?_, ?_⟩
  · intro s
    unfold symptom_list
    rw [mem_stableSort, mem_foldl_addSym]
    simp [List.mem_flatMap]
  · unfold symptom_list
    exact ((stableSort_perm _ _).nodup_iff).mpr
      (nodup_foldl_addSym _ _ List.nodup_nil)
  · have htrans : ∀ a b c : String,
        symLE a b = true → symLE b c = true → symLE a c = true := by
      intro a b c h1 h2
      simp only [symLE, decide_eq_true_eq] at *
      exact le_trans h1 h2
    have htotal : ∀ a b : String, symLE a b = true ∨ symLE b a = true := by
      intro a b
      simp only [symLE, decide_eq_true_eq]
      exact le_total _ _
    unfold symptom_list
    exact (pairwise_stableSort htrans htotal _).imp fun h => by
      simpa [symLE] using h

/-- C6: the loader merges every dataset row with the same trimmed disease
name into a single record (the key list has no duplicates) whose symptom set
is the union of the parsed symptom-cell tokens of those rows, and never
creates a record for a row whose trimmed disease name is empty. -/
theorem loader_merges_rows (rows : List Row) (n : String) (info : DiseaseInfo)
    (h : lookupKey n (disease_map rows) = some info) :
    n ≠ "" ∧
    (∀ s, s ∈ info.symptoms ↔
      ∃ row ∈ rows, pyStrip row.Disease = n ∧ s ∈ parseCell row.Symptom) ∧
    ((disease_map rows).map Prod.fst).Nodup := by
  obtain ⟨h1, h2⟩ := mem_symptoms_disease_map rows n info h
  exact ⟨h1, h2, nodup_keys_disease_map rows⟩

theorem loader_merges_rows_witness :
    (lookupKey "Flu" (disease_map rowsEx) = some infoFlu) ∧
      (("Flu" : String) ≠ "" ∧
        (∀ s, s ∈ infoFlu.symptoms ↔
          ∃ row ∈ rowsEx, pyStrip row.Disease = "Flu" ∧
            s ∈ parseCell row.Symptom) ∧
        ((disease_map rowsEx).map Prod.fst).Nodup) :=
  ⟨by decide, loader_merges_rows rowsEx "Flu" infoFlu (by decide)⟩

/-- The statable fragment of the representative-selection behaviour: the
reported precaution and medicine of an included disease are an element of
that disease's precaution/medicine set, or the literal string
"No information" when the respective set is empty.  Which element Python
selects is the head of the built-in set's iteration order, which this
embedding fixes to insertion order; see the discussion at the top of the
file. -/
theorem representative_from_sets (kb : List (String × DiseaseInfo))
    (typed d : String) (e : MatchResult) (h : (d, e) ∈ query kb typed) :
    ∃ info, (d, info) ∈ kb ∧
      (e.precaution ∈ info.precautions ∨
        (info.precautions = [] ∧ e.precaution = "No information")) ∧
      (e.medicine ∈ info.medicines ∨
        (info.medicines = [] ∧ e.medicine = "No information")) := by
  unfold query at h
  rw [mem_queryTokens, mem_rawResults] at h
  obtain ⟨-, info, hmem, -, he⟩ := h
  refine ⟨info, hmem, ?_, ?_⟩
  · rw [he]
    cases hp : info.precautions <;> simp [resultOf, hp]
  · rw [he]
    cases hp : info.medicines <;> simp [resultOf, hp]

theorem representative_from_sets_witness :
    (("Malaria", mrMal) ∈ query kbEx "fever") ∧
      ∃ info, ("Malaria", info) ∈ kbEx ∧
        (mrMal.precaution ∈ info.precautions ∨
          (info.precautions = [] ∧ mrMal.precaution = "No information")) ∧
        (mrMal.medicine ∈ info.medicines ∨
          (info.medicines = [] ∧ mrMal.medicine = "No information")) :=
  ⟨by decide,
    representative_from_sets kbEx "fever" "Malaria" mrMal (by decide)⟩

end ClaimsSection
